import Mathlib

/-!
Verification of the MusicApp melody-retrieval backend.

Shallow embedding of the contour pipeline from `src/backend/main.py` and
`src/backend/ingest.py`:
* `notesToContour` embeds `notes_to_contour` (main.py lines 20-32); the same
  encoding loop appears inline in `midi_to_contour` (ingest.py lines 124-133).
* `audioSegStep` / `segmentPitches` embed the denoising segmentation loop of
  `audio_to_contour` (main.py lines 56-65): a frame pitch is appended when the
  kept list is empty or the pitch differs from the last kept one by more
  than 0.5 semitones.
* `containsL` / `contourQuery` embed the Mongo regex query of
  `search_by_parsons` (main.py lines 94-96): the query string is regex-escaped,
  so matching is plain substring containment, case-insensitive (`$options: i`),
  unanchored, capped by `.limit`.
* `maxByFirst` embeds the Python builtin `max(..., key=...)` used to select the melody
  track in `midi_to_contour` (ingest.py line 114): it returns the first
  element attaining the maximal key.
Pitches are modelled as rationals (audio pitches are fractional MIDI numbers;
symbolic pitches are integers, which embed into ℚ).
-/

/-- Parsons symbol for the step from pitch `a` to pitch `b`
(the comparisons of main.py lines 26-31). -/
def parsonsSym {α : Type} [LinearOrder α] (a b : α) : Char :=
  if b > a then 'U' else if b < a then 'D' else 'R'

/-- The symbols appended by the loop `for i in range(1, len(notes))`:
`contourSyms prev ps` compares each element of `ps` with its predecessor,
starting from `prev`. -/
def contourSyms {α : Type} [LinearOrder α] : α → List α → List Char
  | _, [] => []
  | prev, p :: ps => parsonsSym prev p :: contourSyms p ps

/-- `notes_to_contour` (main.py lines 20-32): `None` when fewer than 2 notes,
otherwise `"*"` followed by one symbol per adjacent pair. -/
def notesToContour {α : Type} [LinearOrder α] (notes : List α) : Option String :=
  if notes.length < 2 then none
  else
    match notes with
    | [] => none
    | p :: ps => some (String.mk ('*' :: contourSyms p ps))

/-- The Python builtin `abs` on rationals (an executable form of `|q|`). -/
def ratAbs (q : ℚ) : ℚ := if q < 0 then -q else q

/-- One iteration of the segmentation loop in `audio_to_contour`
(main.py line 64): `if not notes or abs(midi_note - notes[-1]) > 0.5:
notes.append(midi_note)`. -/
def audioSegStep (acc : List ℚ) (p : ℚ) : List ℚ :=
  match acc.getLast? with
  | none => acc ++ [p]
  | some l => if ratAbs (p - l) > mkRat 1 2 then acc ++ [p] else acc

/-- The full segmentation pass of `audio_to_contour` over the per-frame
pitch stream (frames whose detected pitch is positive, already converted
to MIDI numbers). -/
def segmentPitches (frames : List ℚ) : List ℚ :=
  frames.foldl audioSegStep []

/-- `audio_to_contour` after decoding and pitch tracking: `none` models the
exception path (missing/empty/undecodable audio, caught at main.py line 69);
otherwise the frame pitch stream is segmented and encoded. -/
def audioToContour (decoded : Option (List ℚ)) : Option String :=
  match decoded with
  | none => none
  | some frames => notesToContour (segmentPitches frames)

/-- A corpus document as read by the search endpoints: the core only
inspects `melodic_contour`; `eid` stands for the opaque `_id`. -/
structure CorpusEntry where
  eid : String
  melodic_contour : String
deriving DecidableEq, Repr

/-- `startsWithL pat hay` : `hay` begins with `pat`. -/
def startsWithL : List Char → List Char → Bool
  | [], _ => true
  | _ :: _, [] => false
  | a :: as, b :: bs => a == b && startsWithL as bs

/-- `containsL hay pat` : `pat` occurs contiguously somewhere in `hay` —
the semantics of the escaped, unanchored Mongo `$regex` of main.py line 95. -/
def containsL : List Char → List Char → Bool
  | [], pat => startsWithL pat []
  | h :: t, pat => startsWithL pat (h :: t) || containsL t pat

/-- Case-insensitive substring containment (`$options: "i"`). -/
def containsCI (hay pat : String) : Bool :=
  containsL (hay.data.map Char.toLower) (pat.data.map Char.toLower)

/-- `collection.find({melodic_contour: {$regex: escaped, $options: i}}).limit(limit)`:
matching documents in natural (insertion) order, capped at `limit`. -/
def contourQuery (corpus : List CorpusEntry) (pattern : String) (limit : Nat) :
    List CorpusEntry :=
  (corpus.filter fun e => containsCI e.melodic_contour pattern).take limit

/-- `search_by_parsons` (main.py lines 85-100): responds with the query and
the matching documents, capped at 20. -/
def searchByParsons (corpus : List CorpusEntry) (query : String) :
    String × List CorpusEntry :=
  (query, contourQuery corpus query 20)

/-- `search_by_audio` (main.py lines 102-138): a falsy contour (extraction
failure) yields `{generated_contour: None, results: []}`; otherwise the
derived contour is searched with cap 10. -/
def searchByAudio (decoded : Option (List ℚ)) (corpus : List CorpusEntry) :
    Option String × List CorpusEntry :=
  match audioToContour decoded with
  | none => (none, [])
  | some s => if s.isEmpty then (none, []) else (some s, contourQuery corpus s 10)

/-- MIDI message kinds relevant to `midi_to_contour`; `other` covers
`note_off`, meta and control messages. -/
inductive MsgType where
  | noteOn
  | noteOff
  | other
deriving DecidableEq, Repr

/-- A MIDI track message as inspected by `midi_to_contour`
(ingest.py lines 116-118). -/
structure MidiMsg where
  mtype : MsgType
  note : Nat
  velocity : Nat
deriving DecidableEq, Repr

/-- The note-on count of a track, `len(...)` over messages whose type field
equals note_on (ingest.py line 114). -/
def noteOnCount (track : List MidiMsg) : Nat :=
  (track.filter fun m => decide (m.mtype = MsgType.noteOn)).length

/-- The Python builtin `max(xs, key=f)`: first element attaining the maximal key
(`None` on an empty list, where Python raises). The fold replaces the
current best only on a strictly greater key, so ties keep the earlier
element. -/
def maxByFirst {α : Type} (f : α → Nat) : List α → Option α
  | [] => none
  | t :: ts => some (ts.foldl (fun best x => if f x > f best then x else best) t)

/-- The note-collection loop of `midi_to_contour` (ingest.py lines 116-118):
one pitch per `note_on` with strictly positive velocity, in event order. -/
def extractNotes (track : List MidiMsg) : List Nat :=
  track.filterMap fun m =>
    if m.mtype = MsgType.noteOn ∧ 0 < m.velocity then some m.note else none

/-- `midi_to_contour` (ingest.py lines 104-137): select the track with the
most `note_on` events, collect its positive-velocity `note_on` pitches,
and encode them (the inline loop of lines 120-133 is exactly
`notesToContour`). An empty track list makes `max` raise, caught as `None`. -/
def midiToContour (tracks : List (List MidiMsg)) : Option String :=
  match maxByFirst noteOnCount tracks with
  | none => none
  | some track => notesToContour (extractNotes track)

/-- Demo corpus used by the substring-search scenarios of the spec. -/
def demoE1 : CorpusEntry := ⟨"e1", "*UUD"⟩

def demoE2 : CorpusEntry := ⟨"e2", "*DDU"⟩

def demoCorpus : List CorpusEntry := [demoE1, demoE2]

/-! ## Helper lemmas -/

theorem contourSyms_length {α : Type} [LinearOrder α] :
    ∀ (ps : List α) (prev : α), (contourSyms prev ps).length = ps.length
  | [], _ => rfl
  | p :: ps, prev => by simp [contourSyms, contourSyms_length ps p]

theorem contourSyms_get? {α : Type} [LinearOrder α] :
    ∀ (ps : List α) (prev : α) (i : Nat),
      (contourSyms prev ps).get? i
        = ((prev :: ps).get? i).bind fun x => (ps.get? i).map fun y => parsonsSym x y
  | [], prev, i => by cases i <;> simp [contourSyms]
  | p :: ps, prev, 0 => by simp [contourSyms]
  | p :: ps, prev, i + 1 => by
    simp only [contourSyms, List.get?_cons_succ]
    exact contourSyms_get? ps p i

/-! ## C1: contour encoding -/

/-- C1: for every pitch sequence of length at least 2, `notesToContour`
returns a string of the same length whose first character is `*` and whose
`i`-th character (for `1 ≤ i < n`) is `U`, `D` or `R` according to the
comparison of `p[i]` with `p[i-1]`; in particular `[60,62,64,63]` encodes
to `"*UUD"`. -/
theorem contour_encoder_spec :
    (∀ (p : List ℚ), 2 ≤ p.length →
      ∃ s, notesToContour p = some s
        ∧ s.length = p.length
        ∧ s.data.get? 0 = some '*'
        ∧ ∀ i, 1 ≤ i → i < p.length →
            s.data.get? i
              = (p.get? (i - 1)).bind fun x => (p.get? i).map fun y => parsonsSym x y)
    ∧ notesToContour [(60 : ℚ), 62, 64, 63] = some "*UUD" := by
  constructor
  · intro p hp
    rcases p with _ | ⟨a, _ | ⟨b, rest⟩⟩
    · simp at hp
    · simp at hp
    refine ⟨String.mk ('*' :: contourSyms a (b :: rest)), rfl, ?_, rfl, ?_⟩
    · show ('*' :: contourSyms a (b :: rest)).length = (a :: b :: rest).length
      simp [contourSyms_length]
    · intro i h1 h2
      obtain ⟨j, rfl⟩ : ∃ j, i = j + 1 := ⟨i - 1, by omega⟩
      show ('*' :: contourSyms a (b :: rest)).get? (j + 1) = _
      rw [List.get?_cons_succ, contourSyms_get?]
      simp only [Nat.add_sub_cancel]
      rfl
  · decide

theorem contour_encoder_spec_witness :
    ∃ s, notesToContour [(60 : ℚ), 62, 64, 63] = some s
      ∧ s.length = 4
      ∧ s.data.get? 0 = some '*'
      ∧ ∀ i, 1 ≤ i → i < 4 →
          s.data.get? i
            = (([(60 : ℚ), 62, 64, 63].get? (i - 1)).bind fun x =>
                ([(60 : ℚ), 62, 64, 63].get? i).map fun y => parsonsSym x y) :=
  contour_encoder_spec.1 [(60 : ℚ), 62, 64, 63] (by decide)

/-! ## C7: fewer than 2 observations -/

/-- C7: a pitch sequence with fewer than 2 observations yields no contour
(`None`, the `EmptyMelody` report), from the symbolic path and from the
audio segmenter alike; in particular the single note `[60]`. -/
theorem empty_melody_spec :
    (∀ notes : List ℚ, notes.length < 2 → notesToContour notes = none)
    ∧ (∀ frames : List ℚ, (segmentPitches frames).length < 2 →
        audioToContour (some frames) = none)
    ∧ (∀ (tracks : List (List MidiMsg)) (t : List MidiMsg),
        maxByFirst noteOnCount tracks = some t → (extractNotes t).length < 2 →
        midiToContour tracks = none)
    ∧ notesToContour [(60 : ℚ)] = none := by
  have base : ∀ {α : Type} [LinearOrder α] (notes : List α),
      notes.length < 2 → notesToContour notes = none := by
    intro α _ notes h
    unfold notesToContour
    rw [if_pos h]
  refine ⟨fun notes h => base notes h, ?_, ?_, by decide⟩
  · intro frames h
    show notesToContour (segmentPitches frames) = none
    exact base _ h
  · intro tracks t ht h
    show midiToContour tracks = none
    unfold midiToContour
    rw [ht]
    exact base _ h

theorem empty_melody_spec_witness :
    notesToContour [(60 : ℚ)] = none ∧ audioToContour (some [(60 : ℚ)]) = none :=
  ⟨empty_melody_spec.1 [(60 : ℚ)] (by decide),
   empty_melody_spec.2.1 [(60 : ℚ)] (by decide)⟩

/-! ## C6: audio failure handling -/

/-- C6: whenever audio extraction fails — the decode/exception path, or a
segmented sequence with fewer than 2 observations — `search_by_audio`
responds `{generated_contour: None, results: []}` for every corpus. -/
theorem audio_failure_response :
    (∀ corpus, searchByAudio none corpus = (none, []))
    ∧ (∀ (frames : List ℚ) corpus, (segmentPitches frames).length < 2 →
        searchByAudio (some frames) corpus = (none, [])) := by
  constructor
  · intro corpus
    rfl
  · intro frames corpus h
    unfold searchByAudio
    have hnone : audioToContour (some frames) = none := by
      show notesToContour (segmentPitches frames) = none
      unfold notesToContour
      rw [if_pos h]
    rw [hnone]

theorem audio_failure_response_witness :
    searchByAudio (some []) demoCorpus = (none, []) :=
  audio_failure_response.2 [] demoCorpus (by decide)

/-! ## C4: no tolerance in the encoder -/

unseal Rat.sub in
/-- C4 counterexample: the pitches 60 and 60.2 differ by 0.2 ≤ 0.5
semitones, yet the encoder emits `U`, not `R` — comparison is exact, no
tolerance is applied. -/
theorem encoder_tolerance_counterexample :
    notesToContour [(60 : ℚ), mkRat 301 5] = some "*U"
    ∧ ratAbs (mkRat 301 5 - 60) ≤ mkRat 1 2
    ∧ "*U" ≠ "*R" := by
  refine ⟨by decide, by decide, by decide⟩

/-- C4 amended: the encoder compares fractional pitches exactly — the
symbol is `R` precisely when the two pitches are equal, and a pair within
the 0.5-semitone tolerance but unequal yields `U` or `D`. -/
theorem encoder_exact_comparison :
    ∀ a b : ℚ, (parsonsSym a b = 'R' ↔ b = a)
      ∧ (b ≠ a → ratAbs (b - a) ≤ mkRat 1 2 →
          parsonsSym a b = 'U' ∨ parsonsSym a b = 'D') := by
  intro a b
  unfold parsonsSym
  rcases lt_trichotomy a b with h | h | h
  · rw [if_pos h]
    refine ⟨⟨fun hc => absurd hc (by decide), fun hb => absurd h (by simp [hb])⟩, ?_⟩
    intro _ _
    exact Or.inl rfl
  · subst h
    rw [if_neg (lt_irrefl a), if_neg (lt_irrefl a)]
    exact ⟨⟨fun _ => rfl, fun _ => rfl⟩, fun hne _ => absurd rfl hne⟩
  · rw [if_neg (by exact not_lt.mpr h.le), if_pos h]
    refine ⟨⟨fun hc => absurd hc (by decide), fun hb => absurd h (by simp [hb])⟩, ?_⟩
    intro _ _
    exact Or.inr rfl

unseal Rat.sub in
theorem encoder_exact_comparison_witness :
    parsonsSym (60 : ℚ) (mkRat 301 5) = 'U' ∨ parsonsSym (60 : ℚ) (mkRat 301 5) = 'D' :=
  (encoder_exact_comparison 60 (mkRat 301 5)).2 (by decide) (by decide)

/-! ## C9: result caps -/

unseal Rat.sub in
/-- C9: every literal text query returns at most 20 entries and every
audio-derived query at most 10; both caps are attained on a corpus of 25
matching documents. -/
theorem query_result_caps :
    (∀ corpus q, (searchByParsons corpus q).2.length ≤ 20)
    ∧ (∀ decoded corpus, (searchByAudio decoded corpus).2.length ≤ 10)
    ∧ (searchByParsons (List.replicate 25 demoE1) "*").2.length = 20
    ∧ (searchByAudio (some [60, 64]) (List.replicate 25 demoE1)).2.length = 10 := by
  have hq : ∀ corpus pattern lim, (contourQuery corpus pattern lim).length ≤ lim := by
    intro corpus pattern lim
    show ((corpus.filter _).take lim).length ≤ lim
    rw [List.length_take]
    exact min_le_left _ _
  refine ⟨fun corpus q => hq corpus q 20, ?_, by decide, by decide⟩
  intro decoded corpus
  unfold searchByAudio
  cases audioToContour decoded with
  | none => simp
  | some s =>
    cases hs : s.isEmpty with
    | true => simp [hs]
    | false =>
      simp only [hs, Bool.false_eq_true, if_false]
      exact hq corpus s 10

/-! ## C3: denoising segmentation -/

unseal Rat.sub in
/-- C3: a frame pitch is appended to the kept sequence exactly when the
kept sequence is empty or the pitch differs from the last kept observation
by strictly more than 0.5 semitones; the frame stream
`[60.0, 60.2, 64.0, 63.9, 63.8]` keeps `[60.0, 64.0]` and encodes to `"*U"`. -/
theorem segmentation_keep_rule :
    (∀ (acc : List ℚ) (p : ℚ),
        audioSegStep acc p = acc ++ [p] ↔
          acc = [] ∨ ∃ l, acc.getLast? = some l ∧ ratAbs (p - l) > mkRat 1 2)
    ∧ segmentPitches [60, mkRat 301 5, 64, mkRat 639 10, mkRat 319 5] = [60, 64]
    ∧ audioToContour (some [60, mkRat 301 5, 64, mkRat 639 10, mkRat 319 5])
        = some "*U" := by
  refine ⟨?_, by decide, by decide⟩
  intro acc p
  unfold audioSegStep
  cases hl : acc.getLast? with
  | none =>
    constructor
    · intro _
      exact Or.inl (List.getLast?_eq_none_iff.mp hl)
    · intro _
      rfl
  | some l =>
    show (if ratAbs (p - l) > mkRat 1 2 then acc ++ [p] else acc) = acc ++ [p] ↔ _
    by_cases hc : ratAbs (p - l) > mkRat 1 2
    · rw [if_pos hc]
      constructor
      · intro _
        exact Or.inr ⟨l, rfl, hc⟩
      · intro _
        rfl
    · rw [if_neg hc]
      constructor
      · intro h
        have hlen := congrArg List.length h
        simp only [List.length_append, List.length_cons, List.length_nil] at hlen
        omega
      · rintro (rfl | ⟨l', hl', hc'⟩)
        · simp at hl
        · injection hl' with he
          subst he
          exact absurd hc' hc

theorem segmentation_keep_rule_witness :
    audioSegStep [] 60 = [] ++ [60] :=
  (segmentation_keep_rule.1 [] 60).mpr (Or.inl rfl)

/-! ## Substring-search lemmas -/

theorem startsWithL_iff :
    ∀ (pat hay : List Char), startsWithL pat hay = true ↔ ∃ t, hay = pat ++ t
  | [], hay => by
    simp [startsWithL]
  | a :: as, [] => by
    constructor
    · intro h
      simp [startsWithL] at h
    · rintro ⟨t, h⟩
      simp at h
  | a :: as, b :: bs => by
    simp only [startsWithL, Bool.and_eq_true, beq_iff_eq]
    constructor
    · rintro ⟨rfl, h⟩
      obtain ⟨t, rfl⟩ := (startsWithL_iff as bs).mp h
      exact ⟨t, rfl⟩
    · rintro ⟨t, h⟩
      injection h with h1 h2
      subst h1
      exact ⟨rfl, (startsWithL_iff as bs).mpr ⟨t, h2⟩⟩

theorem containsL_iff :
    ∀ (hay pat : List Char), containsL hay pat = true ↔ ∃ s t, hay = s ++ pat ++ t
  | [], pat => by
    show startsWithL pat [] = true ↔ _
    rw [startsWithL_iff]
    constructor
    · rintro ⟨t, ht⟩
      exact ⟨[], t, by simpa using ht⟩
    · rintro ⟨s, t, hst⟩
      have h0 : s ++ pat ++ t = [] := hst.symm
      rw [List.append_eq_nil, List.append_eq_nil] at h0
      have h1 : pat = [] ∧ t = [] := ⟨h0.1.2, h0.2⟩
      exact ⟨[], by simp [h1.1]⟩
  | h :: hs, pat => by
    show (startsWithL pat (h :: hs) || containsL hs pat) = true ↔ _
    rw [Bool.or_eq_true, startsWithL_iff, containsL_iff hs pat]
    constructor
    · rintro (⟨t, ht⟩ | ⟨s, t, hst⟩)
      · exact ⟨[], t, by simpa using ht⟩
      · exact ⟨h :: s, t, by simp [hst]⟩
    · rintro ⟨s, t, hst⟩
      cases s with
      | nil => exact Or.inl ⟨t, by simpa using hst⟩
      | cons x s =>
        injection hst with h1 h2
        exact Or.inr ⟨s, t, h2⟩

theorem containsL_nil_pat : ∀ hay : List Char, containsL hay [] = true
  | [] => rfl
  | h :: t => by
    show (startsWithL [] (h :: t) || containsL t []) = true
    rw [containsL_nil_pat t]
    simp [startsWithL]

theorem containsCI_iff (hay pat : String) :
    containsCI hay pat = true ↔
      ∃ s t, hay.data.map Char.toLower = s ++ pat.data.map Char.toLower ++ t :=
  containsL_iff _ _

/-! ## C2: substring search -/

/-- C2: the contour query returns only corpus entries whose contour
contains the pattern as a contiguous substring anywhere (case-insensitive),
in corpus order, at most `lim` of them, and all matching entries whenever
the matches fit the cap; on contours `["*UUD", "*DDU"]`, `"UD"` returns the
first entry only, `"DD"` the second only, `"Z"` none. -/
theorem substring_query_spec :
    (∀ (corpus : List CorpusEntry) (pattern : String) (lim : Nat),
        (contourQuery corpus pattern lim).length ≤ lim
      ∧ List.Sublist (contourQuery corpus pattern lim) corpus
      ∧ (∀ e, e ∈ contourQuery corpus pattern lim →
          ∃ s t, e.melodic_contour.data.map Char.toLower
            = s ++ pattern.data.map Char.toLower ++ t)
      ∧ (∀ e, e ∈ corpus →
          (∃ s t, e.melodic_contour.data.map Char.toLower
            = s ++ pattern.data.map Char.toLower ++ t) →
          (corpus.filter fun x => containsCI x.melodic_contour pattern).length ≤ lim →
          e ∈ contourQuery corpus pattern lim))
    ∧ contourQuery demoCorpus "UD" 20 = [demoE1]
    ∧ contourQuery demoCorpus "DD" 20 = [demoE2]
    ∧ contourQuery demoCorpus "Z" 20 = [] := by
  refine ⟨?_, by decide, by decide, by decide⟩
  intro corpus pattern lim
  refine ⟨?_, ?_, ?_, ?_⟩
  · show ((corpus.filter _).take lim).length ≤ lim
    rw [List.length_take]
    exact min_le_left _ _
  · exact (List.take_sublist _ _).trans (List.filter_sublist _)
  · intro e he
    have he2 : e ∈ corpus.filter fun x => containsCI x.melodic_contour pattern :=
      List.mem_of_mem_take he
    exact (containsCI_iff _ _).mp (List.mem_filter.mp he2).2
  · intro e hmem hdec hlen
    have hc : containsCI e.melodic_contour pattern = true := (containsCI_iff _ _).mpr hdec
    have hf : e ∈ corpus.filter fun x => containsCI x.melodic_contour pattern :=
      List.mem_filter.mpr ⟨hmem, hc⟩
    show e ∈ (corpus.filter _).take lim
    rw [List.take_of_length_le hlen]
    exact hf

theorem substring_query_spec_witness :
    demoE1 ∈ contourQuery demoCorpus "UD" 20 :=
  (substring_query_spec.1 demoCorpus "UD" 20).2.2.2 demoE1 (by decide)
    ⟨['*', 'u'], [], by decide⟩ (by decide)

/-! ## C5: malformed literal queries -/

/-- C5 counterexample: the empty query string is accepted, but it matches
every corpus entry (every string contains the empty substring), so it does
not return zero matches. -/
theorem empty_query_counterexample :
    (searchByParsons demoCorpus "").2 = demoCorpus ∧ demoCorpus ≠ [] :=
  ⟨by decide, by decide⟩

/-- The lower-cased Parsons alphabet, for stating well-formedness of
corpus contours. -/
def parsonsLowerAlphabet : List Char := ['*', 'u', 'd', 'r']

/-- C5 amended: malformed literal query text is accepted without error;
a query containing a character outside the contour alphabet yields zero
matches against any corpus of alphabet-only contours, but the empty string
matches every entry and returns the first `lim` of them. -/
theorem malformed_query_spec :
    (∀ (corpus : List CorpusEntry) (q : String) (lim : Nat),
        (∀ e, e ∈ corpus → ∀ c, c ∈ e.melodic_contour.data →
          Char.toLower c ∈ parsonsLowerAlphabet) →
        (∃ c, c ∈ q.data ∧ Char.toLower c ∉ parsonsLowerAlphabet) →
        contourQuery corpus q lim = [])
    ∧ (∀ corpus lim, contourQuery corpus "" lim = corpus.take lim) := by
  constructor
  · rintro corpus q lim hwf ⟨c0, hc0, hbad⟩
    show (corpus.filter _).take lim = []
    have hfil : (corpus.filter fun e => containsCI e.melodic_contour q) = [] := by
      rw [List.filter_eq_nil_iff]
      intro e he hcont
      obtain ⟨s, t, hst⟩ := (containsCI_iff _ _).mp hcont
      have hinpat : Char.toLower c0 ∈ q.data.map Char.toLower :=
        List.mem_map_of_mem _ hc0
      have hinhay : Char.toLower c0 ∈ e.melodic_contour.data.map Char.toLower := by
        rw [hst]
        simp only [List.mem_append]
        exact Or.inl (Or.inr hinpat)
      obtain ⟨c1, hc1, he1⟩ := List.mem_map.mp hinhay
      have halpha := hwf e he c1 hc1
      rw [he1] at halpha
      exact hbad halpha
    rw [hfil]
    exact List.take_nil
  · intro corpus lim
    show (corpus.filter _).take lim = corpus.take lim
    have hall : (corpus.filter fun e => containsCI e.melodic_contour "") = corpus := by
      rw [List.filter_eq_self]
      intro e _
      exact containsL_nil_pat _
    rw [hall]

theorem malformed_query_spec_witness :
    contourQuery demoCorpus "Z" 20 = [] :=
  malformed_query_spec.1 demoCorpus "Z" 20 (by decide) ⟨'Z', by decide, by decide⟩

/-! ## C8: melody-track selection -/

theorem pickFirstMax_spec {α : Type} (f : α → Nat) (ts : List α) :
    ∀ a : α, ∃ pre post,
      a :: ts = pre ++ (ts.foldl (fun best x => if f x > f best then x else best) a) :: post
      ∧ (∀ u, u ∈ pre →
          f u < f (ts.foldl (fun best x => if f x > f best then x else best) a))
      ∧ (∀ u, u ∈ a :: ts →
          f u ≤ f (ts.foldl (fun best x => if f x > f best then x else best) a)) := by
  induction ts with
  | nil =>
    intro a
    refine ⟨[], [], rfl, by simp, ?_⟩
    intro u hu
    rw [List.mem_singleton] at hu
    rw [hu]
    exact le_refl _
  | cons x ts ih =>
    intro a
    have hfold : (x :: ts).foldl (fun best y => if f y > f best then y else best) a
        = ts.foldl (fun best y => if f y > f best then y else best)
            (if f x > f a then x else a) := rfl
    by_cases h : f x > f a
    · rw [if_pos h] at hfold
      obtain ⟨pre, post, heq, hlt, hle⟩ := ih x
      rw [hfold]
      refine ⟨a :: pre, post, by rw [List.cons_append, ← heq], ?_, ?_⟩
      · intro u hu
        rcases List.mem_cons.mp hu with hua | hu
        · rw [hua]
          exact lt_of_lt_of_le h (hle x (List.mem_cons_self x ts))
        · exact hlt u hu
      · intro u hu
        rcases List.mem_cons.mp hu with hua | hu
        · rw [hua]
          exact le_of_lt (lt_of_lt_of_le h (hle x (List.mem_cons_self x ts)))
        · exact hle u hu
    · rw [if_neg h] at hfold
      have hxa : f x ≤ f a := le_of_not_lt h
      obtain ⟨pre, post, heq, hlt, hle⟩ := ih a
      rw [hfold]
      cases pre with
      | nil =>
        have ha : a = ts.foldl (fun best y => if f y > f best then y else best) a := by
          injection heq
        refine ⟨[], x :: ts, ?_, by simp, ?_⟩
        · rw [← ha]
          rfl
        · intro u hu
          rcases List.mem_cons.mp hu with hua | hu
          · rw [hua]
            exact hle a (List.mem_cons_self a ts)
          rcases List.mem_cons.mp hu with hux | hu
          · rw [hux]
            exact le_trans hxa (hle a (List.mem_cons_self a ts))
          · exact hle u (List.mem_cons_of_mem a hu)
      | cons b pre =>
        injection heq with hba hts
        subst hba
        refine ⟨a :: x :: pre, post, ?_, ?_, ?_⟩
        · conv_lhs => rw [hts]
          rfl
        · intro u hu
          rcases List.mem_cons.mp hu with hua | hu
          · rw [hua]
            exact hlt a (List.mem_cons_self a pre)
          rcases List.mem_cons.mp hu with hux | hu
          · rw [hux]
            exact lt_of_le_of_lt hxa (hlt a (List.mem_cons_self a pre))
          · exact hlt u (List.mem_cons_of_mem a hu)
        · intro u hu
          rcases List.mem_cons.mp hu with hua | hu
          · rw [hua]
            exact hle a (List.mem_cons_self a ts)
          rcases List.mem_cons.mp hu with hux | hu
          · rw [hux]
            exact le_trans hxa (hle a (List.mem_cons_self a ts))
          · exact hle u (List.mem_cons_of_mem a hu)

/-- C8: the symbolic extractor selects the track with the greatest
`note_on` count, ties resolved to the first such track in input order, and
from it emits one pitch per strictly-positive-velocity `note_on` event in
event order, ignoring everything else. -/
theorem melody_track_selection :
    (∀ (tracks : List (List MidiMsg)) (t : List MidiMsg),
        maxByFirst noteOnCount tracks = some t →
          (∃ pre post, tracks = pre ++ t :: post
            ∧ ∀ u, u ∈ pre → noteOnCount u < noteOnCount t)
        ∧ (∀ u, u ∈ tracks → noteOnCount u ≤ noteOnCount t)
        ∧ midiToContour tracks = notesToContour (extractNotes t))
    ∧ (∀ (m : MidiMsg) (track : List MidiMsg),
        (m.mtype = MsgType.noteOn → 0 < m.velocity →
          extractNotes (m :: track) = m.note :: extractNotes track)
      ∧ ((m.mtype ≠ MsgType.noteOn ∨ m.velocity = 0) →
          extractNotes (m :: track) = extractNotes track)) := by
  constructor
  · intro tracks t ht
    cases tracks with
    | nil => exact absurd ht (by simp [maxByFirst])
    | cons t0 ts =>
      have hfold : t = ts.foldl (fun best x =>
          if noteOnCount x > noteOnCount best then x else best) t0 := by
        have hsome : some (ts.foldl (fun best x =>
            if noteOnCount x > noteOnCount best then x else best) t0) = some t := ht
        injection hsome with hsome
        exact hsome.symm
      obtain ⟨pre, post, heq, hlt, hle⟩ := pickFirstMax_spec noteOnCount ts t0
      rw [← hfold] at heq hlt hle
      refine ⟨⟨pre, post, heq, hlt⟩, hle, ?_⟩
      unfold midiToContour
      rw [ht]
  · intro m track
    constructor
    · intro h1 h2
      show List.filterMap _ (m :: track) = _
      rw [List.filterMap_cons, if_pos ⟨h1, h2⟩]
      rfl
    · intro hnot
      show List.filterMap _ (m :: track) = _
      have hcond : ¬(m.mtype = MsgType.noteOn ∧ 0 < m.velocity) := by
        rcases hnot with h | h
        · exact fun hc => h hc.1
        · exact fun hc => by omega
      rw [List.filterMap_cons, if_neg hcond]
      rfl

/-- Two-track tie: both demo tracks have two `note_on` events; the first
one is selected. -/
def demoTrackA : List MidiMsg :=
  [⟨MsgType.noteOn, 60, 100⟩, ⟨MsgType.noteOn, 62, 100⟩]

def demoTrackB : List MidiMsg :=
  [⟨MsgType.noteOn, 70, 100⟩, ⟨MsgType.noteOn, 71, 100⟩]

theorem melody_track_selection_witness :
    (∃ pre post, [demoTrackA, demoTrackB] = pre ++ demoTrackA :: post
      ∧ ∀ u, u ∈ pre → noteOnCount u < noteOnCount demoTrackA)
    ∧ (∀ u, u ∈ [demoTrackA, demoTrackB] → noteOnCount u ≤ noteOnCount demoTrackA)
    ∧ midiToContour [demoTrackA, demoTrackB] = notesToContour (extractNotes demoTrackA) :=
  melody_track_selection.1 [demoTrackA, demoTrackB] demoTrackA (by decide)

/-! ## C10: audio contours contain no R -/

/-- Adjacent kept pitches differ by more than the 0.5 threshold. -/
def bigJump (a b : ℚ) : Prop := ratAbs (b - a) > mkRat 1 2

theorem bigJump_ne (a b : ℚ) (h : bigJump a b) : a ≠ b := by
  intro heq
  subst heq
  unfold bigJump at h
  rw [sub_self] at h
  have h0 : ratAbs 0 = 0 := by decide
  rw [h0] at h
  exact absurd h (by decide)

theorem chain_audioSegStep (acc : List ℚ) (p : ℚ) (h : List.Chain' bigJump acc) :
    List.Chain' bigJump (audioSegStep acc p) := by
  unfold audioSegStep
  cases hl : acc.getLast? with
  | none =>
    rw [List.getLast?_eq_none_iff.mp hl]
    exact List.chain'_singleton p
  | some l =>
    show List.Chain' bigJump (if ratAbs (p - l) > mkRat 1 2 then acc ++ [p] else acc)
    by_cases hc : ratAbs (p - l) > mkRat 1 2
    · rw [if_pos hc]
      refine List.Chain'.append h (List.chain'_singleton p) ?_
      intro x hx y hy
      rw [hl] at hx
      rw [Option.mem_def] at hx hy
      injection hx with hx
      injection hy with hy
      rw [← hx, ← hy]
      exact hc
    · rw [if_neg hc]
      exact h

theorem chain_segmentPitches (frames : List ℚ) :
    List.Chain' bigJump (segmentPitches frames) := by
  suffices hgen : ∀ acc, List.Chain' bigJump acc →
      List.Chain' bigJump (frames.foldl audioSegStep acc) from
    hgen [] List.chain'_nil
  induction frames with
  | nil => exact fun acc h => h
  | cons p ps ih => exact fun acc h => ih _ (chain_audioSegStep acc p h)

theorem contourSyms_mem_of_ne {α : Type} [LinearOrder α] :
    ∀ (ps : List α) (prev : α), List.Chain (fun a b => a ≠ b) prev ps →
      ∀ c, c ∈ contourSyms prev ps → c = 'U' ∨ c = 'D'
  | [], _, _, c, hc => absurd hc (List.not_mem_nil c)
  | p :: ps, prev, hch, c, hc => by
    rw [List.chain_cons] at hch
    rcases List.mem_cons.mp hc with hcs | hc
    · rw [hcs]
      unfold parsonsSym
      rcases lt_trichotomy prev p with h | h | h
      · rw [if_pos h]
        exact Or.inl rfl
      · exact absurd h hch.1
      · rw [if_neg (not_lt.mpr h.le), if_pos h]
        exact Or.inr rfl
    · exact contourSyms_mem_of_ne ps p hch.2 c hc

/-- C10: every contour produced from audio starts with `*` and every later
symbol is `U` or `D`; no `R` occurs — segmentation keeps only pitches more
than 0.5 semitones away from the last kept one, so consecutive kept pitches
are never equal under the exact comparison of the encoder. -/
theorem audio_contour_no_repeat :
    ∀ (frames : List ℚ) (s : String), audioToContour (some frames) = some s →
      ∃ rest, s.data = '*' :: rest
        ∧ (∀ c, c ∈ rest → c = 'U' ∨ c = 'D')
        ∧ ∀ c, c ∈ s.data → c ≠ 'R' := by
  intro frames s h
  have hch : List.Chain' bigJump (segmentPitches frames) := chain_segmentPitches frames
  have h2 : notesToContour (segmentPitches frames) = some s := h
  cases hn : segmentPitches frames with
  | nil =>
    rw [hn] at h2
    exact Option.noConfusion h2
  | cons p ps =>
    rw [hn] at h2 hch
    cases ps with
    | nil => exact Option.noConfusion h2
    | cons q ps =>
      have h3 : some (String.mk ('*' :: contourSyms p (q :: ps))) = some s := h2
      injection h3 with h3
      have hchain : List.Chain (fun a b : ℚ => a ≠ b) p (q :: ps) :=
        List.Chain.imp (fun a b hab => bigJump_ne a b hab) hch
      have hUD : ∀ c, c ∈ contourSyms p (q :: ps) → c = 'U' ∨ c = 'D' :=
        contourSyms_mem_of_ne _ _ hchain
      refine ⟨contourSyms p (q :: ps), by rw [← h3], ?_, ?_⟩
      · exact hUD
      · intro c hc
        rw [← h3] at hc
        rcases List.mem_cons.mp hc with h1 | h1
        · rw [h1]
          decide
        · rcases hUD c h1 with h4 | h4 <;> rw [h4] <;> decide

unseal Rat.sub in
theorem audio_contour_no_repeat_witness :
    ∃ rest, "*U".data = '*' :: rest
      ∧ (∀ c, c ∈ rest → c = 'U' ∨ c = 'D')
      ∧ ∀ c, c ∈ "*U".data → c ≠ 'R' :=
  audio_contour_no_repeat [60, 64] "*U" (by decide)
